import Mathlib

/-!
Verification development for the cv-calendar client (src/src/App.tsx).

The source file contains three near-duplicate React component variants,
concatenated.  The definitions below are shallow embeddings of the
functions cited by the specification, translated from the source:

* variant 2 (lines 146-575) provides `readLocalStorageItems`, the
  local-midnight visible-date initializer, the Firestore merge step of
  `fetchVisibleDays`, `addItem`, `uploadPending` and `deleteItem`;
* variant 3 (lines 576-906) provides the `toISOString`-based
  `formatDateKey` / `makeDateBefore` pair and the purely local
  `removeItem`.

JavaScript records become Lean structures, `Record<string, T>` becomes an
association list `List (String × T)` (JavaScript objects preserve
insertion order and have unique keys; spread-update replaces a key in
place, `delete` removes it), `Array.prototype.sort` (stable by the
ECMAScript standard) becomes `List.mergeSort`, and asynchronous remote
calls are modelled by explicit success/failure parameters.
-/

set_option linter.unusedVariables false

namespace CvCalendar

/-- An item as held in the in-memory `itemsMap` of variants 2 and 3:
`{ id, title, link, createdAtMs, pending }`.  The optional JavaScript
`pending` field is modelled as a `Bool` (absent = `false`, matching
JavaScript truthiness). -/
structure Item where
  id : String
  title : String
  link : String
  createdAtMs : Nat
  pending : Bool
deriving DecidableEq, Repr

/-- A record built from a Firestore document snapshot in
`fetchVisibleDays`: `{ id: doc.id, title, link, createdAtMs }`. -/
structure ServerRec where
  id : String
  title : String
  link : String
  createdAtMs : Nat
deriving DecidableEq, Repr

/-- The in-memory `itemsMap : Record<string, Item[]>`, embedded as an
association list in insertion order. -/
def ItemsMap : Type := List (String × List Item)

instance : DecidableEq ItemsMap := by
  unfold ItemsMap
  infer_instance

/-- Lookup of `m[k]` on a JavaScript object: first entry with the key. -/
def mapFind? : ItemsMap → String → Option (List Item)
  | [], _ => none
  | (k, v) :: t, key => if k = key then some v else mapFind? t key

/-- The read pattern `m[k] || []` used throughout the source. -/
def getArr (m : ItemsMap) (k : String) : List Item :=
  (mapFind? m k).getD []

/-- The update `{ ...prev, [k]: v }` (equivalently `newMap[k] = v`):
replaces the value of an existing key in place, otherwise appends the new
key at the end, as JavaScript object semantics prescribe. -/
def mapSet : ItemsMap → String → List Item → ItemsMap
  | [], key, v => [(key, v)]
  | (k, w) :: t, key, v =>
    if k = key then (k, v) :: t else (k, w) :: mapSet t key v

/-- The update `delete newMap[k]`. -/
def mapErase : ItemsMap → String → ItemsMap
  | [], _ => []
  | (k, w) :: t, key =>
    if k = key then mapErase t key else (k, w) :: mapErase t key

/-- The ECMAScript `String.prototype.startsWith` test: the pattern is a
prefix of the string (stated on the underlying character lists). -/
def strStartsWith (s pre : String) : Bool :=
  pre.data.isPrefixOf s.data

/-- The test `it.id && String(it.id).startsWith("local-")` marking a
locally-created (pending) item; an empty string is falsy. -/
def isLocalId (id : String) : Bool :=
  id ≠ "" && strStartsWith id "local-"

/-- The comparator `(a, b) => (a.createdAtMs || 0) - (b.createdAtMs || 0)`
passed to `Array.prototype.sort`, as a Boolean `≤` test (`createdAtMs` is
always a number here, and `x || 0` is the identity on numbers up to the
falsy value `0`, which compares identically). -/
def itemLE (a b : Item) : Bool :=
  a.createdAtMs ≤ b.createdAtMs

/-- Variant 3 `removeItem` (lines 792-797): filter the bucket by id and
write the filtered array back unconditionally; no remote call is made. -/
def removeItem (m : ItemsMap) (dateKey id : String) : ItemsMap :=
  mapSet m dateKey ((getArr m dateKey).filter (fun it => it.id ≠ id))

/-- The local-removal update shared by the three branches of variant 2
`deleteItem` (lines 417-423, 430-435, 440-444): filter the bucket, keep
the key while the array is nonempty, otherwise delete the key. -/
def deleteLocal (m : ItemsMap) (dateKey id : String) : ItemsMap :=
  let arr := (getArr m dateKey).filter (fun it => it.id ≠ id)
  if arr.length > 0 then mapSet m dateKey arr else mapErase m dateKey

/-- Variant 2 `deleteItem` (lines 414-447).  `dbAvail` models whether the
Firestore handle `db` is non-null, and `remoteOk` models whether the
awaited `deleteDoc` resolves (`true`) or throws (`false`).  For a
non-local id with `db` available the code awaits `deleteDoc` first and
performs the local removal only after it succeeds; the `catch` branch
only logs. -/
def deleteItem (dbAvail remoteOk : Bool) (m : ItemsMap)
    (dateKey id : String) : ItemsMap :=
  if id = "" then m
  else if strStartsWith id "local-" then deleteLocal m dateKey id
  else if dbAvail then
    if remoteOk then deleteLocal m dateKey id else m
  else deleteLocal m dateKey id

/-- The promotion update used by the `addItem` success path (lines
404-407) and the `uploadPending` success path (lines 352-355): map over
the bucket replacing the matching local id by the server-assigned id and
clearing `pending`. -/
def promoteLocal (m : ItemsMap) (dateKey localId newId : String) : ItemsMap :=
  mapSet m dateKey
    ((getArr m dateKey).map
      (fun it => if it.id = localId then { it with id := newId, pending := false } else it))

/-- The optimistic bucket insert of `addItem` (lines 386-391): copy the
bucket, push the new record, stable-sort by `createdAtMs`.
`Date.now()` and the random local id are explicit parameters of the
caller. -/
def addItemBucket (arr : List Item) (rec : Item) : List Item :=
  (arr ++ [rec]).mergeSort itemLE

/-- The full optimistic local state update of `addItem`. -/
def addItemLocal (m : ItemsMap) (dateKey title link : String)
    (createdAtMs : Nat) (localId : String) : ItemsMap :=
  mapSet m dateKey
    (addItemBucket (getArr m dateKey) (Item.mk localId title link createdAtMs true))

/-- An item as persisted in localStorage (lines 366-379 persist
`{ id, title, link, createdAtMs }`; the `pending` flag is not stored).
Fields are optional because `JSON.parse` output is untyped and the
initializer defaults each one (lines 252-258). -/
structure RawItem where
  id : Option String
  title : Option String
  link : Option String
  createdAtMs : Option Nat
deriving DecidableEq, Repr

/-- The mapping shape produced by parsing the localStorage payload. -/
def RawMap : Type := List (String × List RawItem)

/-- Variant 2 `readLocalStorageItems` (lines 225-232).  The opaque
`localStorage.getItem` result is `stored` (`none` models `null`), and
`JSON.parse` is the opaque `parse` (`none` models a parse exception).
The code returns `raw ? JSON.parse(raw) : {}` inside `try`/`catch`,
defaulting to the empty object when `raw` is falsy (absent key or empty
string) or when parsing throws. -/
def readLocalStorageItems (parse : String → Option RawMap)
    (stored : Option String) : RawMap :=
  match stored with
  | none => []
  | some raw => if raw = "" then [] else ((parse raw).getD [])

/-- The duplicate-suppression key `` `${title}::${createdAtMs}` `` built by
the merge step (line 304). -/
def dupKey (title : String) (createdAtMs : Nat) : String :=
  title ++ "::" ++ toString createdAtMs

/-- The `serverKeys` set of the merge step (line 304), a JavaScript `Set`
of key strings modelled as the underlying list with membership test. -/
def serverKeys (serverArr : List ServerRec) : List String :=
  serverArr.map (fun s => dupKey s.title s.createdAtMs)

/-- The `filteredLocal` list of the merge step (lines 301 and 305): the
local-prefixed items of the current bucket whose `(title, createdAtMs)`
key matches no fetched item. -/
def filteredLocal (localArr : List Item) (serverArr : List ServerRec) : List Item :=
  (localArr.filter (fun i => isLocalId i.id)).filter
    (fun l => !((serverKeys serverArr).contains (dupKey l.title l.createdAtMs)))

/-- The `normalizedServer` list of the merge step (line 307): fetched
records marked non-pending. -/
def normalizedServer (serverArr : List ServerRec) : List Item :=
  serverArr.map (fun s => Item.mk s.id s.title s.link s.createdAtMs false)

/-- The `merged` concatenation before sorting (line 309). -/
def mergePreSort (localArr : List Item) (serverArr : List ServerRec) : List Item :=
  normalizedServer serverArr ++ filteredLocal localArr serverArr

/-- The per-day reconciliation merge of variant 2 `fetchVisibleDays`
(lines 301-312): keep only local-prefixed items from the current bucket,
drop those whose `(title, createdAtMs)` key matches a fetched item, mark
fetched items non-pending, concatenate fetched-then-local and stable-sort
by `createdAtMs`. -/
def mergeDay (localArr : List Item) (serverArr : List ServerRec) : List Item :=
  (mergePreSort localArr serverArr).mergeSort itemLE

/-- The state update of `fetchVisibleDays` (lines 298-316): starting from
a copy of the previous map, replace the bucket of every visible date key
by the merge of its current bucket with the fetched records
(`fromServer[dk] || []` is modelled by the lookup function `fromServer`). -/
def fetchMerge (m : ItemsMap) (visibleDates : List String)
    (fromServer : String → List ServerRec) : ItemsMap :=
  visibleDates.foldl (fun acc dk => mapSet acc dk (mergeDay (getArr acc dk) (fromServer dk))) m

/-! ### Association-list lemmas for the object operations -/

theorem mapFind?_set_self (m : ItemsMap) (k : String) (v : List Item) :
    mapFind? (mapSet m k v) k = some v := by
  induction m with
  | nil => simp [mapSet, mapFind?]
  | cons h t ih =>
    obtain ⟨k', w⟩ := h
    by_cases hk : k' = k <;> simp [mapSet, mapFind?, hk, ih]

theorem mapFind?_set_ne (m : ItemsMap) (k k' : String) (v : List Item)
    (h : k' ≠ k) : mapFind? (mapSet m k v) k' = mapFind? m k' := by
  induction m with
  | nil => simp [mapSet, mapFind?, Ne.symm h]
  | cons hd t ih =>
    obtain ⟨k₀, w⟩ := hd
    by_cases hk : k₀ = k
    · subst hk
      have hne : ¬ k₀ = k' := fun hh => h (hh.symm)
      simp [mapSet, mapFind?, hne]
    · simp only [mapSet, hk, if_neg hk, mapFind?]
      by_cases hk' : k₀ = k' <;> simp [hk', ih]

theorem mapFind?_erase_self (m : ItemsMap) (k : String) :
    mapFind? (mapErase m k) k = none := by
  induction m with
  | nil => simp [mapErase, mapFind?]
  | cons hd t ih =>
    obtain ⟨k₀, w⟩ := hd
    by_cases hk : k₀ = k <;> simp [mapErase, hk, mapFind?, ih]

theorem mapFind?_erase_ne (m : ItemsMap) (k k' : String) (h : k' ≠ k) :
    mapFind? (mapErase m k) k' = mapFind? m k' := by
  induction m with
  | nil => simp [mapErase]
  | cons hd t ih =>
    obtain ⟨k₀, w⟩ := hd
    by_cases hk : k₀ = k
    · subst hk
      have hne : ¬ k₀ = k' := fun hh => h (hh.symm)
      simp [mapErase, mapFind?, hne, ih]
    · simp only [mapErase, hk, if_neg hk, mapFind?]
      by_cases hk' : k₀ = k' <;> simp [hk', ih]

theorem getArr_set_self (m : ItemsMap) (k : String) (v : List Item) :
    getArr (mapSet m k v) k = v := by
  simp [getArr, mapFind?_set_self]

theorem getArr_set_ne (m : ItemsMap) (k k' : String) (v : List Item)
    (h : k' ≠ k) : getArr (mapSet m k v) k' = getArr m k' := by
  simp [getArr, mapFind?_set_ne m k k' v h]

theorem getArr_deleteLocal (m : ItemsMap) (dk id : String) :
    getArr (deleteLocal m dk id) dk = (getArr m dk).filter (fun it => it.id ≠ id) := by
  simp only [deleteLocal]
  split
  · rw [getArr_set_self]
  · rename_i h
    have hnil := List.length_eq_zero.mp (Nat.le_zero.mp (Nat.not_lt.mp h))
    rw [hnil]
    simp [getArr, mapFind?_erase_self]

/-- C8: the local-cache load is a total function into mappings, and on an
absent stored value or a parse failure it returns the empty mapping
(`readLocalStorageItems`, lines 225-232, and the identically-shaped
variant-1 initializer, lines 38-45). -/
theorem readLocalStorageItems_default_empty
    (parse : String → Option RawMap) (stored : Option String)
    (h : stored = none ∨ ∃ s, stored = some s ∧ parse s = none) :
    readLocalStorageItems parse stored = [] := by
  rcases h with h | ⟨s, hs, hp⟩
  · subst h; rfl
  · subst hs
    by_cases he : s = "" <;> simp [readLocalStorageItems, he, hp]

/-- Witness for C8 at a concrete unparseable stored value. -/
theorem readLocalStorageItems_default_empty_witness :
    readLocalStorageItems (fun _ => none) (some "not json") = [] :=
  readLocalStorageItems_default_empty (fun _ => none) (some "not json")
    (Or.inr ⟨"not json", rfl, rfl⟩)

/-- C10: removing an identity that occurs nowhere in the day's bucket
leaves the bucket's item list unchanged (same elements, same order), both
for variant 3 `removeItem` (lines 59-64 / 792-797) and for every branch
of variant 2 `deleteItem` (lines 414-447); both functions are total. -/
theorem removeItem_unknown_id_noop (m : ItemsMap) (dk id : String)
    (h : ∀ it ∈ getArr m dk, it.id ≠ id) :
    getArr (removeItem m dk id) dk = getArr m dk
      ∧ ∀ dbAvail remoteOk, getArr (deleteItem dbAvail remoteOk m dk id) dk = getArr m dk := by
  have hfilter : (getArr m dk).filter (fun it => it.id ≠ id) = getArr m dk :=
    List.filter_eq_self.mpr (fun a ha => by simp [h a ha])
  have hdl : getArr (deleteLocal m dk id) dk = getArr m dk := by
    rw [getArr_deleteLocal, hfilter]
  constructor
  · unfold removeItem
    rw [getArr_set_self, hfilter]
  · intro dbAvail remoteOk
    unfold deleteItem
    by_cases h1 : id = ""
    · simp [h1]
    · by_cases h2 : strStartsWith id "local-" <;> cases dbAvail <;> cases remoteOk <;>
        simp [h1, h2, hdl]

/-- Witness for C10 at a concrete bucket and unknown identity. -/
theorem removeItem_unknown_id_noop_witness :
    getArr (removeItem [("d", [Item.mk "r1" "A" "" 1000 false])] "d" "zzz") "d"
      = getArr [("d", [Item.mk "r1" "A" "" 1000 false])] "d" :=
  (removeItem_unknown_id_noop [("d", [Item.mk "r1" "A" "" 1000 false])] "d" "zzz"
    (by decide)).1

/-- C9: the fetch-and-merge state update only replaces buckets of day
keys in the visible window; any key outside the window keeps exactly its
previous binding (lines 298-316). -/
theorem fetchMerge_frame (m : ItemsMap) (visibleDates : List String)
    (fromServer : String → List ServerRec) (dk : String) (h : dk ∉ visibleDates) :
    mapFind? (fetchMerge m visibleDates fromServer) dk = mapFind? m dk := by
  induction visibleDates generalizing m with
  | nil => rfl
  | cons v rest ih =>
    have hne : dk ≠ v := fun hh => h (hh ▸ List.mem_cons_self v rest)
    have hrest : dk ∉ rest := fun hh => h (List.mem_cons_of_mem v hh)
    have step : fetchMerge m (v :: rest) fromServer
        = fetchMerge (mapSet m v (mergeDay (getArr m v) (fromServer v))) rest fromServer := rfl
    rw [step, ih _ hrest, mapFind?_set_ne _ _ _ _ hne]

/-- Witness for C9 at a concrete map and window. -/
theorem fetchMerge_frame_witness :
    mapFind? (fetchMerge [("a", [Item.mk "r1" "A" "" 1000 false])] ["b"] (fun _ => [])) "a"
      = mapFind? [("a", [Item.mk "r1" "A" "" 1000 false])] "a" :=
  fetchMerge_frame [("a", [Item.mk "r1" "A" "" 1000 false])] ["b"] (fun _ => []) "a"
    (by decide)

/-- C6: promotion of a pending item (the success continuations at lines
404-407 and 352-355) rewrites only that item's identity and pending flag,
keeping its title, link, `createdAtMs` and its position, every other item
of the bucket, and every other bucket of the map unchanged. -/
theorem promoteLocal_frame (m : ItemsMap) (dk localId newId : String) (j : Nat) (it : Item)
    (hj : (getArr m dk)[j]? = some it) (hid : it.id = localId)
    (huniq : ∀ k (hk : k < (getArr m dk).length), k ≠ j →
      ((getArr m dk).get ⟨k, hk⟩).id ≠ localId) :
    (getArr (promoteLocal m dk localId newId) dk).length = (getArr m dk).length
      ∧ (getArr (promoteLocal m dk localId newId) dk)[j]?
          = some (Item.mk newId it.title it.link it.createdAtMs false)
      ∧ (∀ k, k ≠ j →
          (getArr (promoteLocal m dk localId newId) dk)[k]? = (getArr m dk)[k]?)
      ∧ (∀ dk', dk' ≠ dk →
          mapFind? (promoteLocal m dk localId newId) dk' = mapFind? m dk') := by
  have hl : getArr (promoteLocal m dk localId newId) dk
      = (getArr m dk).map
          (fun x => if x.id = localId then { x with id := newId, pending := false } else x) := by
    simp [promoteLocal, getArr_set_self]
  refine ⟨by simp [hl], ?_, ?_, ?_⟩
  · rw [hl, List.getElem?_map, hj]
    simp [hid]
  · intro k hk
    rw [hl, List.getElem?_map]
    cases horig : (getArr m dk)[k]? with
    | none => rfl
    | some it' =>
      have hbound : k < (getArr m dk).length := by
        by_contra hb
        rw [List.getElem?_eq_none (Nat.le_of_not_lt hb)] at horig
        exact Option.noConfusion horig
      have hget : (getArr m dk).get ⟨k, hbound⟩ = it' := by
        have := List.getElem?_eq_getElem hbound
        rw [horig] at this
        exact (Option.some.injEq _ _).mp this.symm
      have : it'.id ≠ localId := hget ▸ huniq k hbound hk
      simp [this]
  · intro dk' hdk
    exact mapFind?_set_ne m dk dk' _ hdk

/-- Witness for C6 at a concrete two-item bucket. -/
theorem promoteLocal_frame_witness :
    (getArr (promoteLocal [("d", [Item.mk "local-a" "T" "L" 5 true, Item.mk "x" "U" "" 3 false])]
        "d" "local-a" "srv1") "d")[0]?
      = some (Item.mk "srv1" "T" "L" 5 false) :=
  (promoteLocal_frame [("d", [Item.mk "local-a" "T" "L" 5 true, Item.mk "x" "U" "" 3 false])]
    "d" "local-a" "srv1" 0 (Item.mk "local-a" "T" "L" 5 true)
    (by decide) (by decide) (by decide)).2.1

/-- C1 counterexample: for a remote identity with the remote adapter
available, a failing remote remove leaves the local state unchanged — the
item is not removed, so local removal is not unconditional and a remote
failure does prevent it (`deleteItem`, lines 427-438). -/
theorem deleteItem_remote_failure_keeps_item :
    deleteItem true false [("2024-01-01", [Item.mk "r1" "A" "" 1000 false])] "2024-01-01" "r1"
      = [("2024-01-01", [Item.mk "r1" "A" "" 1000 false])]
    ∧ Item.mk "r1" "A" "" 1000 false
        ∈ getArr (deleteItem true false
            [("2024-01-01", [Item.mk "r1" "A" "" 1000 false])] "2024-01-01" "r1")
          "2024-01-01" := by
  constructor <;> decide

/-- C1 (amended): variant 3 `removeItem` removes locally unconditionally
(and issues no remote call); variant 2 `deleteItem` removes locally
whenever the identity is local-prefixed, the adapter is unavailable, or
the remote remove succeeds, but for a remote identity with the adapter
available a remote failure leaves the whole map unchanged. -/
theorem deleteItem_local_removal_semantics (m : ItemsMap) (dk id : String)
    (dbAvail remoteOk : Bool) (hid : id ≠ "") :
    getArr (removeItem m dk id) dk = (getArr m dk).filter (fun it => it.id ≠ id)
      ∧ ((strStartsWith id "local-" = true ∨ dbAvail = false ∨ remoteOk = true) →
          getArr (deleteItem dbAvail remoteOk m dk id) dk
            = (getArr m dk).filter (fun it => it.id ≠ id))
      ∧ (strStartsWith id "local-" = false → dbAvail = true → remoteOk = false →
          deleteItem dbAvail remoteOk m dk id = m) := by
  refine ⟨by unfold removeItem; rw [getArr_set_self], ?_, ?_⟩
  · intro h
    have hdl := getArr_deleteLocal m dk id
    unfold deleteItem
    rcases h with h | h | h
    · simp [hid, h, hdl]
    · subst h
      by_cases h2 : strStartsWith id "local-" <;> simp [hid, h2, hdl]
    · subst h
      by_cases h2 : strStartsWith id "local-" <;> cases dbAvail <;> simp [hid, h2, hdl]
  · intro h1 h2 h3
    subst h2; subst h3
    simp [deleteItem, hid, h1]

/-- Witness for C1's amended theorem: a failing remote remove for a
remote identity leaves the concrete map unchanged. -/
theorem deleteItem_local_removal_semantics_witness :
    deleteItem true false [("d", [Item.mk "r1" "A" "" 1000 false])] "d" "r1"
      = [("d", [Item.mk "r1" "A" "" 1000 false])] :=
  (deleteItem_local_removal_semantics [("d", [Item.mk "r1" "A" "" 1000 false])] "d" "r1"
    true false (by decide)).2.2 (by decide) rfl rfl

/-! ### Stable-sort infrastructure for the merge claims -/

theorem itemLE_trans : ∀ a b c : Item, itemLE a b → itemLE b c → itemLE a c := by
  intro a b c hab hbc
  simp only [itemLE, decide_eq_true_eq] at *
  omega

theorem itemLE_total : ∀ a b : Item, itemLE a b || itemLE b a := by
  intro a b
  simp only [itemLE]
  rcases Nat.le_total a.createdAtMs b.createdAtMs with h | h <;> simp [h]

/-- Stability of the stable sort for any predicate selecting mutually
tied elements: they keep their relative input order, stated as
preservation of the filtered list. -/
theorem mergeSort_filter_tied (l : List Item) (p : Item → Bool)
    (htied : ∀ a b : Item, p a = true → p b = true → itemLE a b = true) :
    (l.mergeSort itemLE).filter p = l.filter p := by
  have hpair : (l.filter p).Pairwise (fun a b => itemLE a b) := by
    refine List.pairwise_of_forall_mem_list ?_
    intro a ha b hb
    exact htied a b (List.of_mem_filter ha) (List.of_mem_filter hb)
  have hsub : List.Sublist (l.filter p) (l.mergeSort itemLE) :=
    List.sublist_mergeSort itemLE_trans itemLE_total hpair (List.filter_sublist l)
  have hself : (l.filter p).filter p = l.filter p := by
    rw [List.filter_eq_self]
    intro a ha
    exact (List.mem_filter.mp ha).2
  have hsub' : List.Sublist (l.filter p) ((l.mergeSort itemLE).filter p) := by
    have h2 := hsub.filter p
    rwa [hself] at h2
  have hperm : ((l.mergeSort itemLE).filter p).length = (l.filter p).length :=
    List.Perm.length_eq (List.Perm.filter _ (List.mergeSort_perm l itemLE))
  exact (hsub'.eq_of_length hperm.symm).symm

/-- Stability of the stable sort, specialized to a fixed `createdAtMs`
value. -/
theorem mergeSort_filter_key (l : List Item) (t : Nat) :
    (l.mergeSort itemLE).filter (fun x => x.createdAtMs = t)
      = l.filter (fun x => x.createdAtMs = t) := by
  refine mergeSort_filter_tied l _ ?_
  intro a b ha hb
  simp only [decide_eq_true_eq] at ha hb
  simp [itemLE, ha, hb]

/-- Two lists sorted by `createdAtMs` with identical key-filtered
sublists for every key are equal. -/
theorem sorted_eq_of_filter_key :
    ∀ l₁ l₂ : List Item, l₁.Pairwise (fun a b => itemLE a b) →
      l₂.Pairwise (fun a b => itemLE a b) →
      (∀ t : Nat, l₁.filter (fun x => x.createdAtMs = t)
        = l₂.filter (fun x => x.createdAtMs = t)) →
      l₁ = l₂ := by
  intro l₁
  induction l₁ with
  | nil =>
    intro l₂ h₁ h₂ hf
    cases l₂ with
    | nil => rfl
    | cons b t₂ =>
      have := hf b.createdAtMs
      simp at this
  | cons a t₁ ih =>
    intro l₂ h₁ h₂ hf
    cases l₂ with
    | nil =>
      have := hf a.createdAtMs
      simp at this
    | cons b t₂ =>
      have hkey : a.createdAtMs = b.createdAtMs := by
        by_contra hne
        have hamem : a ∈ (b :: t₂).filter (fun x => x.createdAtMs = a.createdAtMs) := by
          rw [← hf]
          simp
        have hbmem : b ∈ (a :: t₁).filter (fun x => x.createdAtMs = b.createdAtMs) := by
          rw [hf]
          simp
        have ha2 : a ∈ t₂ := by
          rcases List.mem_cons.mp (List.mem_of_mem_filter hamem) with h | h
          · exact absurd (congrArg Item.createdAtMs h) hne
          · exact h
        have hb1 : b ∈ t₁ := by
          rcases List.mem_cons.mp (List.mem_of_mem_filter hbmem) with h | h
          · exact absurd (congrArg Item.createdAtMs h).symm hne
          · exact h
        have hba : itemLE b a := (List.pairwise_cons.mp h₂).1 a ha2
        have hab : itemLE a b := (List.pairwise_cons.mp h₁).1 b hb1
        simp only [itemLE, decide_eq_true_eq] at hba hab
        omega
      have hhead := hf a.createdAtMs
      rw [List.filter_cons_of_pos (by simp), List.filter_cons_of_pos (by simp [hkey])]
        at hhead
      have hab : a = b := (List.cons.inj hhead).1
      have htail : t₁ = t₂ := by
        refine ih t₂ (List.Pairwise.of_cons h₁) (List.Pairwise.of_cons h₂) ?_
        intro t
        by_cases ht : t = a.createdAtMs
        · subst ht
          exact (List.cons.inj hhead).2
        · have := hf t
          rwa [List.filter_cons_of_neg (by simp [Ne.symm ht]),
            List.filter_cons_of_neg (by simp [hkey ▸ Ne.symm ht])] at this
      rw [hab, htail]

theorem contains_eq_true_iff (ks : List String) (k : String) :
    ks.contains k = true ↔ k ∈ ks :=
  List.elem_iff

theorem contains_eq_false_iff (ks : List String) (k : String) :
    ks.contains k = false ↔ k ∉ ks := by
  rw [← Bool.not_eq_true]
  exact not_congr (contains_eq_true_iff ks k)

theorem mem_normalizedServer_pending_false {a : Item} {serverArr : List ServerRec}
    (h : a ∈ normalizedServer serverArr) : a.pending = false := by
  rcases List.mem_map.mp h with ⟨s, hs, heq⟩
  rw [← heq]

theorem mem_normalizedServer_key_mem {a : Item} {serverArr : List ServerRec}
    (h : a ∈ normalizedServer serverArr) :
    dupKey a.title a.createdAtMs ∈ serverKeys serverArr := by
  rcases List.mem_map.mp h with ⟨s, hs, heq⟩
  rw [← heq]
  exact List.mem_map_of_mem _ hs

theorem mem_filteredLocal_props {a : Item} {localArr : List Item}
    {serverArr : List ServerRec} (h : a ∈ filteredLocal localArr serverArr) :
    isLocalId a.id = true
      ∧ dupKey a.title a.createdAtMs ∉ serverKeys serverArr := by
  unfold filteredLocal at h
  constructor
  · exact (List.mem_filter.mp (List.mem_filter.mp h).1).2
  · have h2 := (List.mem_filter.mp h).2
    rw [Bool.not_eq_eq_eq_not, Bool.not_true] at h2
    exact (contains_eq_false_iff _ _).mp h2

/-- C3: the merge drops every pending local item whose
`(title, createdAtMs)` pair matches some fetched remote item; on the
spec's concrete instance the merged list is exactly the single remote
entry, non-pending (lines 301-312). -/
theorem mergeDay_duplicate_suppression :
    (∀ (localArr : List Item) (serverArr : List ServerRec) (l : Item),
        l ∈ localArr → l.pending = true →
        (∃ s ∈ serverArr, s.title = l.title ∧ s.createdAtMs = l.createdAtMs) →
        l ∉ mergeDay localArr serverArr)
      ∧ mergeDay [Item.mk "local-x" "A" "" 1000 true] [ServerRec.mk "r1" "A" "" 1000]
          = [Item.mk "r1" "A" "" 1000 false] := by
  constructor
  · intro localArr serverArr l hmem hpend hmatch hin
    unfold mergeDay at hin
    rw [List.mem_mergeSort] at hin
    unfold mergePreSort at hin
    rcases List.mem_append.mp hin with hns | hfl
    · rw [mem_normalizedServer_pending_false hns] at hpend
      exact Bool.false_ne_true hpend
    · rcases hmatch with ⟨s, hs, ht, hc⟩
      have hkey : dupKey l.title l.createdAtMs ∈ serverKeys serverArr := by
        have hk0 : dupKey s.title s.createdAtMs ∈ serverKeys serverArr :=
          List.mem_map_of_mem _ hs
        rwa [ht, hc] at hk0
      exact (mem_filteredLocal_props hfl).2 hkey
  · have hpre : mergePreSort [Item.mk "local-x" "A" "" 1000 true]
        [ServerRec.mk "r1" "A" "" 1000] = [Item.mk "r1" "A" "" 1000 false] := by
      decide
    unfold mergeDay
    rw [hpre, List.mergeSort_singleton]

/-- Witness for C3's universal part at the spec's concrete instance. -/
theorem mergeDay_duplicate_suppression_witness :
    Item.mk "local-x" "A" "" 1000 true
      ∉ mergeDay [Item.mk "local-x" "A" "" 1000 true] [ServerRec.mk "r1" "A" "" 1000] :=
  mergeDay_duplicate_suppression.1 _ _ _ (by decide) rfl
    ⟨ServerRec.mk "r1" "A" "" 1000, by decide, rfl, rfl⟩

/-- C4: the merged list and the bucket produced by `addItem`'s optimistic
insert are sorted non-decreasing by `createdAtMs`, and ties keep their
original insertion order: for every timestamp the sub-list with that
timestamp is exactly the input's, in input order (lines 309-312 and
386-391; `Array.prototype.sort` is stable by the ECMAScript standard,
embedded as a stable merge sort). -/
theorem mergeDay_addItem_sorted_stable (localArr : List Item) (serverArr : List ServerRec)
    (arr : List Item) (rec : Item) (t : Nat) :
    (mergeDay localArr serverArr).Pairwise (fun a b => itemLE a b)
      ∧ (mergeDay localArr serverArr).filter (fun x => x.createdAtMs = t)
          = (mergePreSort localArr serverArr).filter (fun x => x.createdAtMs = t)
      ∧ (addItemBucket arr rec).Pairwise (fun a b => itemLE a b)
      ∧ (addItemBucket arr rec).filter (fun x => x.createdAtMs = t)
          = (arr ++ [rec]).filter (fun x => x.createdAtMs = t) := by
  exact ⟨List.sorted_mergeSort itemLE_trans itemLE_total _,
    mergeSort_filter_key _ t,
    List.sorted_mergeSort itemLE_trans itemLE_total _,
    mergeSort_filter_key _ t⟩

/-- For idempotence: re-filtering the merged output by the local-pending
tests recovers, timestamp by timestamp, the surviving local items of the
first merge. -/
theorem filteredLocal_mergeDay_filter_key (localArr : List Item)
    (serverArr : List ServerRec) (t : Nat) :
    (filteredLocal (mergeDay localArr serverArr) serverArr).filter
        (fun x => x.createdAtMs = t)
      = (filteredLocal localArr serverArr).filter (fun x => x.createdAtMs = t) := by
  have hc : ∀ l0 : List Item,
      (((l0.filter (fun i => isLocalId i.id)).filter
          (fun l => !((serverKeys serverArr).contains (dupKey l.title l.createdAtMs)))).filter
        (fun x => x.createdAtMs = t))
      = l0.filter (fun a =>
          (decide (a.createdAtMs = t)
            && !((serverKeys serverArr).contains (dupKey a.title a.createdAtMs)))
          && isLocalId a.id) := by
    intro l0
    rw [List.filter_filter, List.filter_filter]
  have h1 : (filteredLocal (mergeDay localArr serverArr) serverArr).filter
      (fun x => x.createdAtMs = t)
      = (mergeDay localArr serverArr).filter (fun a =>
          (decide (a.createdAtMs = t)
            && !((serverKeys serverArr).contains (dupKey a.title a.createdAtMs)))
          && isLocalId a.id) := by
    rw [filteredLocal, hc]
  have htied : ∀ a b : Item,
      ((decide (a.createdAtMs = t)
          && !((serverKeys serverArr).contains (dupKey a.title a.createdAtMs)))
        && isLocalId a.id) = true →
      ((decide (b.createdAtMs = t)
          && !((serverKeys serverArr).contains (dupKey b.title b.createdAtMs)))
        && isLocalId b.id) = true →
      itemLE a b = true := by
    intro a b ha hb
    simp only [Bool.and_eq_true, decide_eq_true_eq] at ha hb
    simp [itemLE, ha.1.1, hb.1.1]
  have h2 : (mergeDay localArr serverArr).filter (fun a =>
        (decide (a.createdAtMs = t)
          && !((serverKeys serverArr).contains (dupKey a.title a.createdAtMs)))
        && isLocalId a.id)
      = (mergePreSort localArr serverArr).filter (fun a =>
        (decide (a.createdAtMs = t)
          && !((serverKeys serverArr).contains (dupKey a.title a.createdAtMs)))
        && isLocalId a.id) :=
    mergeSort_filter_tied _ _ htied
  have h3 : (normalizedServer serverArr).filter (fun a =>
        (decide (a.createdAtMs = t)
          && !((serverKeys serverArr).contains (dupKey a.title a.createdAtMs)))
        && isLocalId a.id) = [] := by
    rw [List.filter_eq_nil_iff]
    intro a ha hq
    rw [Bool.and_eq_true, Bool.and_eq_true] at hq
    have hnc := hq.1.2
    rw [Bool.not_eq_true'] at hnc
    have hcon : (serverKeys serverArr).contains (dupKey a.title a.createdAtMs) = true :=
      (contains_eq_true_iff _ _).mpr (mem_normalizedServer_key_mem ha)
    rw [hcon] at hnc
    simp at hnc
  have h4 : (filteredLocal localArr serverArr).filter (fun a =>
        (decide (a.createdAtMs = t)
          && !((serverKeys serverArr).contains (dupKey a.title a.createdAtMs)))
        && isLocalId a.id)
      = (filteredLocal localArr serverArr).filter (fun x => x.createdAtMs = t) := by
    refine List.filter_congr ?_
    intro a ha
    have hp := mem_filteredLocal_props ha
    have hcon : (serverKeys serverArr).contains (dupKey a.title a.createdAtMs) = false :=
      (contains_eq_false_iff _ _).mpr hp.2
    rw [hcon, hp.1]
    simp
  have hpre : (mergePreSort localArr serverArr).filter (fun a =>
        (decide (a.createdAtMs = t)
          && !((serverKeys serverArr).contains (dupKey a.title a.createdAtMs)))
        && isLocalId a.id)
      = (normalizedServer serverArr).filter (fun a =>
          (decide (a.createdAtMs = t)
            && !((serverKeys serverArr).contains (dupKey a.title a.createdAtMs)))
          && isLocalId a.id)
        ++ (filteredLocal localArr serverArr).filter (fun a =>
          (decide (a.createdAtMs = t)
            && !((serverKeys serverArr).contains (dupKey a.title a.createdAtMs)))
          && isLocalId a.id) := by
    unfold mergePreSort
    exact List.filter_append _ _
  rw [h1, h2, hpre, h3, h4]
  simp

/-- C5: the per-day reconciliation merge is idempotent — applying the
merge to its own output with the same fetched list reproduces exactly the
same ordered list (lines 298-316). -/
theorem mergeDay_idempotent (localArr : List Item) (serverArr : List ServerRec) :
    mergeDay (mergeDay localArr serverArr) serverArr = mergeDay localArr serverArr := by
  refine sorted_eq_of_filter_key _ _ ?_ ?_ ?_
  · exact List.sorted_mergeSort itemLE_trans itemLE_total _
  · exact List.sorted_mergeSort itemLE_trans itemLE_total _
  · intro t
    have hL : (mergeDay (mergeDay localArr serverArr) serverArr).filter
        (fun x => x.createdAtMs = t)
        = (mergePreSort (mergeDay localArr serverArr) serverArr).filter
          (fun x => x.createdAtMs = t) :=
      mergeSort_filter_key _ t
    have hR : (mergeDay localArr serverArr).filter (fun x => x.createdAtMs = t)
        = (mergePreSort localArr serverArr).filter (fun x => x.createdAtMs = t) :=
      mergeSort_filter_key _ t
    rw [hL, hR]
    unfold mergePreSort
    rw [List.filter_append, List.filter_append, filteredLocal_mergeDay_filter_key]

/-! ### The upload-retry effect (variant 2, lines 326-363)

The `uploadPending` sweep lives in a React effect whose dependency array
is `[db, itemsMap]` (line 363).  React runs such an effect after the
first render and after every render in which some dependency changed.
The model below captures exactly that scheduling over a trace of render
states, plus the body of the sweep. -/

/-- A render state: whether the Firestore handle `db` is non-null, and
the current `itemsMap`. -/
structure AppState where
  db : Bool
  items : ItemsMap
deriving DecidableEq

/-- The dependency array `[db, itemsMap]` of the upload effect. -/
def uploadDeps (s : AppState) : Bool × ItemsMap :=
  (s.db, s.items)

/-- The `pendingEntries` collection of `uploadPending` (lines 330-337):
every local-prefixed item of every bucket, in insertion order. -/
def pendingEntries (m : ItemsMap) : List (String × Item) :=
  m.flatMap (fun e => (e.2.filter (fun it => isLocalId it.id)).map (fun it => (e.1, it)))

/-- The remote `create` calls attempted by one run of the effect: nothing
when `db` is null (the guard at line 327), otherwise one `addDoc` attempt
per pending entry (lines 341-350). -/
def attemptsInRun (s : AppState) : List (String × Item) :=
  if s.db then pendingEntries s.items else []

/-- The attempts produced along a trace of render states, given the deps
value seen at the previous render (`none` before the first render): the
effect runs exactly when the dependency pair differs. -/
def runsAttempts : Option (Bool × ItemsMap) → List AppState → List (String × Item)
  | _, [] => []
  | prev, s :: rest =>
    (if prev ≠ some (uploadDeps s) then attemptsInRun s else [])
      ++ runsAttempts (some (uploadDeps s)) rest

/-- All upload attempts over a full trace (first render always runs the
effect). -/
def traceAttempts (tr : List AppState) : List (String × Item) :=
  runsAttempts none tr

/-- How many times the item with the given identity is attempted. -/
def attemptCount (tr : List AppState) (id : String) : Nat :=
  (traceAttempts tr).countP (fun e => e.2.id = id)

/-- Availability transitions along a trace, starting from the initial
`useState(null)` value of `db` (line 263). -/
def availTransitionsFrom : Bool → List AppState → Nat
  | _, [] => 0
  | prev, s :: rest =>
    (if prev = false ∧ s.db = true then 1 else 0) + availTransitionsFrom s.db rest

def availTransitions (tr : List AppState) : Nat :=
  availTransitionsFrom false tr

/-- The sequential body of `uploadPending` (lines 341-359): for each
pending entry attempt the remote create; `oracle` returns the assigned
remote identity on success and `none` when `addDoc` throws, in which case
the `catch` only logs and the state is untouched. -/
def applyUploadResults (m : ItemsMap) (oracle : String → Option String) : ItemsMap :=
  (pendingEntries m).foldl
    (fun acc e =>
      match oracle e.2.id with
      | some newId => promoteLocal acc e.1 e.2.id newId
      | none => acc) m

/-- C7 counterexample: one availability transition, but the still-pending
item with identity local-x is attempted twice — the effect depends on
`itemsMap` as well as `db`, so the sweep re-runs when another item's
successful promotion changes the map, re-attempting the failed item with
no new availability transition. -/
theorem uploadPending_retries_without_new_transition :
    attemptCount
        [AppState.mk false
          [("2024-03-01", [Item.mk "local-x" "T" "" 1000 true,
            Item.mk "local-y" "U" "" 2000 true])],
         AppState.mk true
          [("2024-03-01", [Item.mk "local-x" "T" "" 1000 true,
            Item.mk "local-y" "U" "" 2000 true])],
         AppState.mk true
          (promoteLocal
            [("2024-03-01", [Item.mk "local-x" "T" "" 1000 true,
              Item.mk "local-y" "U" "" 2000 true])]
            "2024-03-01" "local-y" "srv9")] "local-x" = 2
      ∧ availTransitions
        [AppState.mk false
          [("2024-03-01", [Item.mk "local-x" "T" "" 1000 true,
            Item.mk "local-y" "U" "" 2000 true])],
         AppState.mk true
          [("2024-03-01", [Item.mk "local-x" "T" "" 1000 true,
            Item.mk "local-y" "U" "" 2000 true])],
         AppState.mk true
          (promoteLocal
            [("2024-03-01", [Item.mk "local-x" "T" "" 1000 true,
              Item.mk "local-y" "U" "" 2000 true])]
            "2024-03-01" "local-y" "srv9")] = 1 := by
  constructor <;> decide

/-- C7 (amended): the sweep runs exactly when the dependency pair
`(db, itemsMap)` changes, so within one run each pending entry is
attempted once, a render with unchanged dependencies contributes no
attempts, and a wholly failed sweep leaves the map (hence every pending
item) unchanged — but any later change of `itemsMap` while the adapter
stays available re-runs the sweep, so failed items are re-attempted
before the next availability transition. -/
theorem uploadPending_run_semantics :
    (∀ (prev : Bool × ItemsMap) (s : AppState) (rest : List AppState),
        uploadDeps s = prev →
        runsAttempts (some prev) (s :: rest) = runsAttempts (some (uploadDeps s)) rest)
      ∧ (∀ (m : ItemsMap) (oracle : String → Option String),
          (∀ id, oracle id = none) → applyUploadResults m oracle = m) := by
  constructor
  · intro prev s rest h
    subst h
    simp [runsAttempts]
  · intro m oracle h
    unfold applyUploadResults
    generalize pendingEntries m = l
    induction l generalizing m with
    | nil => rfl
    | cons e rest ih =>
      rw [List.foldl_cons, h e.2.id]
      exact ih m

/-- Witness for C7's amended theorem at a concrete state and oracle. -/
theorem uploadPending_run_semantics_witness :
    runsAttempts (some (true, [("d", [Item.mk "local-x" "T" "" 1000 true])]))
        [AppState.mk true [("d", [Item.mk "local-x" "T" "" 1000 true])]]
      = runsAttempts
          (some (uploadDeps (AppState.mk true [("d", [Item.mk "local-x" "T" "" 1000 true])])))
          [] :=
  uploadPending_run_semantics.1 (true, [("d", [Item.mk "local-x" "T" "" 1000 true])])
    (AppState.mk true [("d", [Item.mk "local-x" "T" "" 1000 true])]) [] rfl

/-! ### The visible-date window (claim C2)

Variant 2 computes its seven keys by local-calendar arithmetic:
`new Date(y, m, d - i)` on the components of today's local midnight
(lines 235, 238-245), rendered by the component-based `formatDateKey`
(lines 171-173).  Variants 1 and 3 instead subtract `i * MS_PER_DAY`
from the current instant (`makeDateBefore`, lines 600-602) and render
with `toISOString().slice(0, 10)` (lines 592-594), which is the UTC
calendar date of the instant.

The host calendar (ECMAScript `Date`, proleptic Gregorian) is embedded
explicitly: `CivilDate` is a year/month/day triple (month 1-based, as in
`getMonth() + 1`), and `new Date(y, m, dayArg)` normalizes an
out-of-range day-of-month by day-offset from the first of the month
(ECMAScript MakeDay), embedded via the calendar successor/predecessor. -/

structure CivilDate where
  year : Int
  month : Nat
  day : Nat
deriving DecidableEq, Repr

/-- Gregorian leap-year rule, as implemented by ECMAScript `Date`. -/
def isLeap (y : Int) : Bool :=
  (y % 4 == 0 && y % 100 != 0) || y % 400 == 0

/-- Days in a (1-based) month of the proleptic Gregorian calendar. -/
def daysInMonth (y : Int) : Nat → Nat
  | 1 => 31
  | 2 => if isLeap y then 29 else 28
  | 3 => 31
  | 4 => 30
  | 5 => 31
  | 6 => 30
  | 7 => 31
  | 8 => 31
  | 9 => 30
  | 10 => 31
  | 11 => 30
  | 12 => 31
  | _ => 0

/-- A well-formed calendar date. -/
def ValidDate (x : CivilDate) : Prop :=
  1 ≤ x.month ∧ x.month ≤ 12 ∧ 1 ≤ x.day ∧ x.day ≤ daysInMonth x.year x.month

instance (x : CivilDate) : Decidable (ValidDate x) := by
  unfold ValidDate
  infer_instance

/-- Next calendar day. -/
def succDate (x : CivilDate) : CivilDate :=
  if x.day < daysInMonth x.year x.month then ⟨x.year, x.month, x.day + 1⟩
  else if x.month < 12 then ⟨x.year, x.month + 1, 1⟩
  else ⟨x.year + 1, 1, 1⟩

/-- Previous calendar day. -/
def predDate (x : CivilDate) : CivilDate :=
  if 1 < x.day then ⟨x.year, x.month, x.day - 1⟩
  else if 1 < x.month then ⟨x.year, x.month - 1, daysInMonth x.year (x.month - 1)⟩
  else ⟨x.year - 1, 12, 31⟩

/-- ECMAScript `new Date(y, m, dayArg)` with the month already 1-based:
MakeDay interprets `dayArg` as an offset of `dayArg - 1` days from the
first of the month, in the proleptic Gregorian calendar. -/
def mkDate (y : Int) (mo : Nat) (dayArg : Int) : CivilDate :=
  if 1 ≤ dayArg then succDate^[(dayArg - 1).toNat] ⟨y, mo, 1⟩
  else predDate^[(1 - dayArg).toNat] ⟨y, mo, 1⟩

/-- Decimal digit character. -/
def digitChar (n : Nat) : Char :=
  Char.ofNat (48 + n)

/-- Decimal digit list of a natural number (fuelled; any fuel above the
number is enough). -/
def decChars : Nat → Nat → List Char
  | 0, _ => []
  | f + 1, n =>
    if n < 10 then [digitChar n] else decChars f (n / 10) ++ [digitChar (n % 10)]

/-- ECMAScript ToString of a non-negative number used by the template
literals in `formatDateKey`. -/
def natDecimal (n : Nat) : String :=
  ⟨decChars (n + 1) n⟩

/-- ECMAScript ToString of an integer (`${d.getFullYear()}`). -/
def intDecimal (i : Int) : String :=
  if i < 0 then "-" ++ natDecimal (-i).toNat else natDecimal i.toNat

/-- The `pad` helper of variant 2 (lines 166-168):
`String(n).padStart(2, "0")`. -/
def pad2 (n : Nat) : String :=
  if n < 10 then "0" ++ natDecimal n else natDecimal n

/-- Variant 2 `formatDateKey` (lines 171-173):
the `${y}-${pad(m + 1)}-${pad(d)}` template over the local components
(our `CivilDate.month` is already the 1-based `getMonth() + 1`). -/
def formatDateKeyLocal (x : CivilDate) : String :=
  intDecimal x.year ++ "-" ++ pad2 x.month ++ "-" ++ pad2 x.day

/-- The variant 2 `visibleDates` initializer (lines 238-245): keys of
`new Date(baseY, baseM, baseD - i)` for `i < n`, newest first, computed
from the components of today's local midnight.  The source fixes
`n = VISIBLE_DAYS = 7`. -/
def visibleDatesLocal (base : CivilDate) (n : Nat) : List String :=
  (List.range n).map
    (fun (i : Nat) =>
      formatDateKeyLocal (mkDate base.year base.month ((base.day : Int) - (i : Int))))

/-- The calendar date of day number `z` (days since 1970-01-01, UTC),
the standard civil-from-days conversion of the Gregorian calendar. -/
def civilFromDays (z : Int) : CivilDate :=
  let zs : Int := z + 719468
  let era : Int := Int.fdiv zs 146097
  let doe : Nat := (zs - era * 146097).toNat
  let yoe : Nat := (doe - doe / 1460 + doe / 36524 - doe / 146096) / 365
  let y : Int := (yoe : Int) + era * 400
  let doy : Nat := doe - (365 * yoe + yoe / 4 - yoe / 100)
  let mp : Nat := (5 * doy + 2) / 153
  let d : Nat := doy - (153 * mp + 2) / 5 + 1
  let m : Nat := if mp < 10 then mp + 3 else mp - 9
  ⟨if m ≤ 2 then y + 1 else y, m, d⟩

/-- Variant 1/3 `formatDateKey` (lines 592-594): `toISOString().slice(0, 10)`
is the UTC calendar date of the instant, rendered `YYYY-MM-DD`
(`toISOString`'s four-digit year padding coincides with the plain
rendering for the years involved here). -/
def utcDateKey (ms : Int) : String :=
  formatDateKeyLocal (civilFromDays (Int.fdiv ms 86400000))

/-- The variant 1/3 `visibleDates` initializer (lines 652-659):
`makeDateBefore(today, i)` subtracts `i * MS_PER_DAY` from the current
instant and the key is its UTC calendar date. -/
def visibleDatesUTC (nowMs : Int) (n : Nat) : List String :=
  (List.range n).map (fun (i : Nat) => utcDateKey (nowMs - (i : Int) * 86400000))

/-- The local calendar date of an instant under a fixed timezone offset
in minutes east of UTC: what `getFullYear()/getMonth()/getDate()` return
for that instant (fixed-offset model of the local timezone). -/
def localCivilDate (ms tzOffsetMin : Int) : CivilDate :=
  civilFromDays (Int.fdiv (ms + tzOffsetMin * 60000) 86400000)

theorem daysInMonth_pos (y : Int) (mo : Nat) (h1 : 1 ≤ mo) (h2 : mo ≤ 12) :
    1 ≤ daysInMonth y mo := by
  interval_cases mo <;> simp only [daysInMonth] <;> first | omega | (split <;> omega)

theorem daysInMonth_le31 (y : Int) (mo : Nat) : daysInMonth y mo ≤ 31 := by
  rcases mo with _|_|_|_|_|_|_|_|_|_|_|_|_|mo' <;>
    simp only [daysInMonth] <;> first | omega | (split <;> omega)

theorem daysInMonth_twelve (y : Int) : daysInMonth y 12 = 31 := rfl

theorem validDate_mk {y : Int} {mo d : Nat} :
    ValidDate ⟨y, mo, d⟩ ↔ 1 ≤ mo ∧ mo ≤ 12 ∧ 1 ≤ d ∧ d ≤ daysInMonth y mo :=
  Iff.rfl

theorem succDate_valid {x : CivilDate} (h : ValidDate x) : ValidDate (succDate x) := by
  obtain ⟨y, mo, d⟩ := x
  rw [validDate_mk] at h
  obtain ⟨h1, h2, h3, h4⟩ := h
  unfold succDate
  dsimp only
  split
  · rename_i hlt
    rw [validDate_mk]
    exact ⟨h1, h2, by omega, by omega⟩
  · split
    · rename_i hnd hm
      rw [validDate_mk]
      refine ⟨by omega, by omega, le_refl 1, ?_⟩
      exact daysInMonth_pos y (mo + 1) (by omega) (by omega)
    · rw [validDate_mk]
      refine ⟨by omega, by omega, le_refl 1, ?_⟩
      show 1 ≤ daysInMonth (y + 1) 1
      simp [daysInMonth]

theorem predDate_valid {x : CivilDate} (h : ValidDate x) : ValidDate (predDate x) := by
  obtain ⟨y, mo, d⟩ := x
  rw [validDate_mk] at h
  obtain ⟨h1, h2, h3, h4⟩ := h
  unfold predDate
  dsimp only
  split
  · rename_i hlt
    rw [validDate_mk]
    exact ⟨h1, h2, by omega, by omega⟩
  · split
    · rename_i hnd hm
      rw [validDate_mk]
      refine ⟨by omega, by omega, ?_, le_refl _⟩
      exact daysInMonth_pos y (mo - 1) (by omega) (by omega)
    · rw [validDate_mk]
      exact ⟨by omega, by omega, by omega, by rw [daysInMonth_twelve]⟩

theorem predDate_succDate {x : CivilDate} (h : ValidDate x) : predDate (succDate x) = x := by
  obtain ⟨y, mo, d⟩ := x
  rw [validDate_mk] at h
  obtain ⟨h1, h2, h3, h4⟩ := h
  unfold succDate
  dsimp only
  split
  · rename_i hlt
    unfold predDate
    dsimp only
    rw [if_pos (by omega : 1 < d + 1)]
    simp
  · split
    · rename_i hnd hm
      have hd : d = daysInMonth y mo := by omega
      unfold predDate
      dsimp only
      rw [if_neg (by omega : ¬ 1 < 1), if_pos (by omega : 1 < mo + 1)]
      simp [hd]
    · rename_i hnd hnm
      have hm12 : mo = 12 := by omega
      have hd : d = 31 := by
        rw [hm12, daysInMonth_twelve] at h4 hnd
        omega
      unfold predDate
      dsimp only
      rw [if_neg (by omega : ¬ 1 < 1), if_neg (by omega : ¬ 1 < 1)]
      rw [hm12, hd]
      simp

/-- A strictly monotone integer rank on calendar dates. -/
def dateRank (x : CivilDate) : Int :=
  372 * x.year + 31 * ((x.month : Int) - 1) + ((x.day : Int) - 1)

theorem dateRank_predDate_lt {x : CivilDate} (h : ValidDate x) :
    dateRank (predDate x) < dateRank x := by
  obtain ⟨y, mo, d⟩ := x
  rw [validDate_mk] at h
  obtain ⟨h1, h2, h3, h4⟩ := h
  have hle := daysInMonth_le31 y (mo - 1)
  unfold predDate
  dsimp only
  split
  · simp only [dateRank]
    omega
  · split
    · simp only [dateRank]
      omega
    · simp only [dateRank]
      omega

theorem validDate_iterate_succ {x : CivilDate} (h : ValidDate x) :
    ∀ k, ValidDate (succDate^[k] x)
  | 0 => h
  | k + 1 => by
    rw [Function.iterate_succ_apply']
    exact succDate_valid (validDate_iterate_succ h k)

theorem validDate_iterate_pred {x : CivilDate} (h : ValidDate x) :
    ∀ k, ValidDate (predDate^[k] x)
  | 0 => h
  | k + 1 => by
    rw [Function.iterate_succ_apply']
    exact predDate_valid (validDate_iterate_pred h k)

theorem pred_iterate_succ_of_le {x : CivilDate} (h : ValidDate x) :
    ∀ (a b : Nat), a ≤ b → predDate^[a] (succDate^[b] x) = succDate^[b - a] x := by
  intro a
  induction a with
  | zero =>
    intro b hb
    simp
  | succ a ih =>
    intro b hb
    have hb1 : 1 ≤ b := by omega
    rw [Function.iterate_succ_apply]
    have hbsplit : succDate^[b] x = succDate (succDate^[b - 1] x) := by
      have hrw : b = (b - 1) + 1 := by omega
      conv_lhs => rw [hrw]
      rw [Function.iterate_succ_apply']
    rw [hbsplit, predDate_succDate (validDate_iterate_succ h (b - 1)),
      ih (b - 1) (by omega)]
    have hrw2 : b - 1 - a = b - (a + 1) := by omega
    rw [hrw2]

theorem pred_iterate_succ_of_ge :
    ∀ (b : Nat) (x : CivilDate), ValidDate x → ∀ a, b ≤ a →
      predDate^[a] (succDate^[b] x) = predDate^[a - b] x := by
  intro b
  induction b with
  | zero =>
    intro x hx a ha
    simp
  | succ b ih =>
    intro x hx a ha
    rw [Function.iterate_succ_apply]
    rw [ih (succDate x) (succDate_valid hx) a (by omega)]
    have h1 : a - b = (a - b - 1) + 1 := by omega
    rw [h1, Function.iterate_succ_apply, predDate_succDate hx]
    have h2 : a - b - 1 = a - (b + 1) := by omega
    rw [h2]

theorem eq_succ_iterate (y : Int) (mo : Nat) (hm1 : 1 ≤ mo) (hm2 : mo ≤ 12) :
    ∀ d, 1 ≤ d → d ≤ daysInMonth y mo →
      (⟨y, mo, d⟩ : CivilDate) = succDate^[d - 1] ⟨y, mo, 1⟩ := by
  intro d
  induction d with
  | zero =>
    intro h1 _
    omega
  | succ d ih =>
    intro h1 h2
    rcases Nat.eq_zero_or_pos d with h0 | hd
    · subst h0
      rfl
    · have hstep : succDate (⟨y, mo, d⟩ : CivilDate) = ⟨y, mo, d + 1⟩ := by
        unfold succDate
        dsimp only
        rw [if_pos (by omega : d < daysInMonth y mo)]
      have hih := ih (by omega) (by omega)
      have hiter : succDate^[(d + 1) - 1] (⟨y, mo, 1⟩ : CivilDate)
          = succDate (succDate^[d - 1] ⟨y, mo, 1⟩) := by
        have hrw : (d + 1) - 1 = (d - 1) + 1 := by omega
        rw [hrw, Function.iterate_succ_apply']
      rw [hiter, ← hih, hstep]

/-- A `new Date(y, m, d - i)` call on a valid base date denotes the i-th
calendar predecessor of that date. -/
theorem mkDate_eq_pred_iterate {y : Int} {mo d : Nat}
    (h : ValidDate ⟨y, mo, d⟩) (i : Nat) :
    mkDate y mo ((d : Int) - (i : Int)) = predDate^[i] ⟨y, mo, d⟩ := by
  rw [validDate_mk] at h
  obtain ⟨h1, h2, h3, h4⟩ := h
  have hfirst : ValidDate ⟨y, mo, 1⟩ :=
    validDate_mk.mpr ⟨h1, h2, le_refl 1, daysInMonth_pos y mo h1 h2⟩
  have hbase : (⟨y, mo, d⟩ : CivilDate) = succDate^[d - 1] ⟨y, mo, 1⟩ :=
    eq_succ_iterate y mo h1 h2 d h3 h4
  by_cases hcase : i + 1 ≤ d
  · unfold mkDate
    rw [if_pos (by omega : (1 : Int) ≤ (d : Int) - (i : Int))]
    have hA : ((d : Int) - (i : Int) - 1).toNat = (d - 1) - i := by omega
    rw [hA, hbase, pred_iterate_succ_of_le hfirst i (d - 1) (by omega)]
  · unfold mkDate
    rw [if_neg (by omega : ¬ (1 : Int) ≤ (d : Int) - (i : Int))]
    have hB : (1 - ((d : Int) - (i : Int))).toNat = i - (d - 1) := by omega
    rw [hB, hbase, pred_iterate_succ_of_ge (d - 1) ⟨y, mo, 1⟩ hfirst i (by omega)]

/-! ### Injectivity of the date-key rendering -/

/-- Decimal decoding, inverse to `decChars`. -/
def decodeDigits (cs : List Char) : Nat :=
  cs.foldl (fun a c => 10 * a + (c.toNat - 48)) 0

theorem digitChar_toNat : ∀ n, n < 10 → (digitChar n).toNat = 48 + n := by decide

theorem decodeDigits_decChars : ∀ (f n : Nat), n < f → decodeDigits (decChars f n) = n := by
  intro f
  induction f with
  | zero =>
    intro n h
    omega
  | succ f ih =>
    intro n h
    unfold decChars
    split
    · rename_i h10
      show decodeDigits [digitChar n] = n
      unfold decodeDigits
      rw [List.foldl_cons, List.foldl_nil, digitChar_toNat n h10]
      omega
    · rename_i h10
      have hdiv : n / 10 < n := Nat.div_lt_self (by omega) (by omega)
      have hn1 : n / 10 < f := by omega
      have happ : decodeDigits (decChars f (n / 10) ++ [digitChar (n % 10)])
          = 10 * decodeDigits (decChars f (n / 10)) + ((digitChar (n % 10)).toNat - 48) := by
        unfold decodeDigits
        rw [List.foldl_append]
        rfl
      rw [happ, ih (n / 10) hn1, digitChar_toNat (n % 10) (by omega)]
      omega

theorem natDecimal_inj {m n : Nat} (h : natDecimal m = natDecimal n) : m = n := by
  have hdata : decChars (m + 1) m = decChars (n + 1) n := congrArg String.data h
  have ha := decodeDigits_decChars (m + 1) m (by omega)
  have hb := decodeDigits_decChars (n + 1) n (by omega)
  rw [← ha, ← hb, hdata]

theorem decChars_all_digit : ∀ (f n : Nat), n < f → ∀ c ∈ decChars f n, 48 ≤ c.toNat := by
  intro f
  induction f with
  | zero =>
    intro n h
    omega
  | succ f ih =>
    intro n h c hc
    unfold decChars at hc
    split at hc
    · rename_i h10
      rcases List.mem_singleton.mp hc with rfl
      rw [digitChar_toNat n h10]
      omega
    · rename_i h10
      have hdiv : n / 10 < n := Nat.div_lt_self (by omega) (by omega)
      rcases List.mem_append.mp hc with hc1 | hc2
      · exact ih (n / 10) (by omega) c hc1
      · rcases List.mem_singleton.mp hc2 with rfl
        rw [digitChar_toNat (n % 10) (by omega)]
        omega

theorem decChars_ne_nil : ∀ (f n : Nat), n < f → decChars f n ≠ [] := by
  intro f n h
  match f with
  | 0 => omega
  | f + 1 =>
    unfold decChars
    split
    · simp
    · simp

theorem intDecimal_head_digit (n : Nat) :
    ∃ c cs, (natDecimal n).data = c :: cs ∧ 48 ≤ c.toNat := by
  have hne := decChars_ne_nil (n + 1) n (by omega)
  cases hcs : decChars (n + 1) n with
  | nil => exact absurd hcs hne
  | cons c cs =>
    refine ⟨c, cs, hcs, ?_⟩
    exact decChars_all_digit (n + 1) n (by omega) c (by rw [hcs]; exact List.mem_cons_self c cs)

theorem intDecimal_inj {a b : Int} (h : intDecimal a = intDecimal b) : a = b := by
  unfold intDecimal at h
  by_cases ha : a < 0 <;> by_cases hb : b < 0
  · rw [if_pos ha, if_pos hb] at h
    have hdata := congrArg String.data h
    rw [String.data_append, String.data_append] at hdata
    have hs : (natDecimal (-a).toNat).data = (natDecimal (-b).toNat).data := by
      simpa using hdata
    have hnat := natDecimal_inj (String.ext hs)
    omega
  · exfalso
    rw [if_pos ha, if_neg hb] at h
    have hdata := congrArg String.data h
    rw [String.data_append] at hdata
    obtain ⟨c, cs, hcs, hdig⟩ := intDecimal_head_digit b.toNat
    rw [hcs] at hdata
    have hhead : '-' = c := by
      have : ("-".data ++ (natDecimal (-a).toNat).data) = c :: cs := hdata
      simpa using congrArg List.head? this
    rw [← hhead] at hdig
    simp at hdig
  · exfalso
    rw [if_neg ha, if_pos hb] at h
    have hdata := congrArg String.data h
    rw [String.data_append] at hdata
    obtain ⟨c, cs, hcs, hdig⟩ := intDecimal_head_digit a.toNat
    rw [hcs] at hdata
    have hhead : c = '-' := by
      have hx : c :: cs = ("-".data ++ (natDecimal (-b).toNat).data) := hdata
      simpa using congrArg List.head? hx
    rw [hhead] at hdig
    simp at hdig
  · rw [if_neg ha, if_neg hb] at h
    have hnat := natDecimal_inj h
    omega

theorem decChars_length_one (f n : Nat) (h10 : n < 10) (hf : 0 < f) :
    (decChars f n).length = 1 := by
  match f with
  | 0 => omega
  | f + 1 =>
    unfold decChars
    rw [if_pos h10]
    rfl

theorem decChars_length_two (f n : Nat) (h1 : 10 ≤ n) (h2 : n < 100) (hf : n < f) :
    (decChars f n).length = 2 := by
  match f with
  | 0 => omega
  | f + 1 =>
    unfold decChars
    rw [if_neg (by omega : ¬ n < 10), List.length_append]
    have hq : n / 10 < 10 := Nat.div_lt_of_lt_mul (by omega)
    have hf' : 0 < f := by omega
    rw [decChars_length_one f (n / 10) hq hf']
    rfl

theorem pad2_data_length (n : Nat) (h : n ≤ 99) : (pad2 n).data.length = 2 := by
  unfold pad2
  split
  · rename_i h10
    rw [String.data_append, List.length_append]
    have h0 : ("0" : String).data.length = 1 := rfl
    have hl : (natDecimal n).data.length = 1 := decChars_length_one (n + 1) n h10 (by omega)
    omega
  · rename_i h10
    exact decChars_length_two (n + 1) n (by omega) (by omega) (by omega)

theorem decodeDigits_cons_zero (l : List Char) :
    decodeDigits ('0' :: l) = decodeDigits l := by
  unfold decodeDigits
  rw [List.foldl_cons]
  have h0 : 10 * 0 + ('0'.toNat - 48) = 0 := by decide
  rw [h0]

theorem decodeDigits_pad2 (n : Nat) (h : n ≤ 99) : decodeDigits (pad2 n).data = n := by
  unfold pad2
  split
  · rename_i h10
    rw [String.data_append]
    have h0 : ("0" : String).data = ['0'] := rfl
    rw [h0]
    rw [show ['0'] ++ (natDecimal n).data = '0' :: (natDecimal n).data from rfl]
    rw [decodeDigits_cons_zero]
    exact decodeDigits_decChars (n + 1) n (by omega)
  · exact decodeDigits_decChars (n + 1) n (by omega)

theorem pad2_inj {m n : Nat} (hm : m ≤ 99) (hn : n ≤ 99)
    (h : (pad2 m).data = (pad2 n).data) : m = n := by
  have h1 := decodeDigits_pad2 m hm
  have h2 := decodeDigits_pad2 n hn
  rw [← h1, ← h2, h]

/-- The rendered day key determines the date, on valid dates. -/
theorem formatDateKeyLocal_inj {x₁ x₂ : CivilDate}
    (h₁ : ValidDate x₁) (h₂ : ValidDate x₂)
    (h : formatDateKeyLocal x₁ = formatDateKeyLocal x₂) : x₁ = x₂ := by
  obtain ⟨y₁, m₁, d₁⟩ := x₁
  obtain ⟨y₂, m₂, d₂⟩ := x₂
  rw [validDate_mk] at h₁ h₂
  obtain ⟨hm1a, hm1b, hd1a, hd1b⟩ := h₁
  obtain ⟨hm2a, hm2b, hd2a, hd2b⟩ := h₂
  have hdule1 := daysInMonth_le31 y₁ m₁
  have hdule2 := daysInMonth_le31 y₂ m₂
  unfold formatDateKeyLocal at h
  dsimp only at h
  have hdata := congrArg String.data h
  simp only [String.data_append] at hdata
  obtain ⟨hpre1, hdd⟩ := List.append_inj' hdata
    (by rw [pad2_data_length d₁ (by omega), pad2_data_length d₂ (by omega)])
  obtain ⟨hpre2, -⟩ := List.append_inj' hpre1 rfl
  obtain ⟨hpre3, hmm'⟩ := List.append_inj' hpre2
    (by rw [pad2_data_length m₁ (by omega), pad2_data_length m₂ (by omega)])
  obtain ⟨hyy, -⟩ := List.append_inj' hpre3 rfl
  have hy := intDecimal_inj (String.ext hyy)
  have hm := pad2_inj (by omega) (by omega) hmm'
  have hd := pad2_inj (by omega) (by omega) hdd
  rw [hy, hm, hd]

/-- The window as calendar dates: today and its iterated predecessors. -/
def predIterDates (base : CivilDate) (n : Nat) : List CivilDate :=
  (List.range n).map (fun i => predDate^[i] base)

theorem predIter_strictAnti {base : CivilDate} (h : ValidDate base) :
    StrictAnti (fun k => dateRank (predDate^[k] base)) := by
  refine strictAnti_nat_of_succ_lt ?_
  intro k
  have hv := validDate_iterate_pred h k
  rw [Function.iterate_succ_apply']
  exact dateRank_predDate_lt hv

theorem predIter_injective {base : CivilDate} (h : ValidDate base) :
    Function.Injective (fun i => predDate^[i] base) := by
  intro i j hij
  exact (predIter_strictAnti h).injective (congrArg dateRank hij)

theorem mem_predIterDates_valid {base : CivilDate} (h : ValidDate base)
    {x : CivilDate} (hx : x ∈ predIterDates base n) : ValidDate x := by
  rcases List.mem_map.mp hx with ⟨i, hi, rfl⟩
  exact validDate_iterate_pred h i

/-- C2 (amended, for the variant 2 initializer at lines 238-245): for
every window size and every valid base date the computed keys are the
renderings of the base date and its iterated calendar predecessors —
exactly `n` keys, newest first (the first is the base date), each
subsequent date the calendar predecessor of the previous one, and all
keys distinct.  The computation is pure calendar arithmetic on local
date components, so no instant arithmetic (and hence no daylight-saving
boundary) is involved. -/
theorem visibleDatesLocal_correct (base : CivilDate) (n : Nat) (h : ValidDate base) :
    visibleDatesLocal base n = (predIterDates base n).map formatDateKeyLocal
      ∧ (visibleDatesLocal base n).length = n
      ∧ (0 < n → (predIterDates base n).head? = some base)
      ∧ (∀ i, i + 1 < n →
          (predIterDates base n)[i + 1]? = ((predIterDates base n)[i]?).map predDate)
      ∧ (visibleDatesLocal base n).Nodup := by
  obtain ⟨y, mo, d⟩ := base
  have hmain : visibleDatesLocal ⟨y, mo, d⟩ n
      = (predIterDates ⟨y, mo, d⟩ n).map formatDateKeyLocal := by
    unfold visibleDatesLocal predIterDates
    rw [List.map_map]
    refine List.map_congr_left ?_
    intro i hi
    dsimp only
    exact congrArg formatDateKeyLocal (mkDate_eq_pred_iterate h i)
  refine ⟨hmain, ?_, ?_, ?_, ?_⟩
  · rw [hmain]
    simp [predIterDates]
  · intro hn
    unfold predIterDates
    cases n with
    | zero => omega
    | succ m =>
      rw [List.range_succ_eq_map]
      rfl
  · intro i hi
    unfold predIterDates
    rw [List.getElem?_map, List.getElem?_map,
      List.getElem?_range hi, List.getElem?_range (by omega : i < n)]
    simp [Function.iterate_succ_apply']
  · rw [hmain]
    have hnodup : (predIterDates ⟨y, mo, d⟩ n).Nodup := by
      unfold predIterDates
      exact (List.nodup_range n).map_on
        (fun i _ j _ hij => predIter_injective h hij)
    refine hnodup.map_on ?_
    intro a ha b hb hab
    exact formatDateKeyLocal_inj (mem_predIterDates_valid h ha)
      (mem_predIterDates_valid h hb) hab

/-- Witness for C2's amended theorem at a concrete base date and the
source's window size 7. -/
theorem visibleDatesLocal_correct_witness :
    visibleDatesLocal ⟨2024, 3, 1⟩ 7
      = (predIterDates ⟨2024, 3, 1⟩ 7).map formatDateKeyLocal :=
  (visibleDatesLocal_correct ⟨2024, 3, 1⟩ 7 (by decide)).1

/-- C2 counterexample: the variant 1/3 computation subtracts
`i * MS_PER_DAY` from the instant and renders the UTC date
(`toISOString`), so in a local timezone two hours east of UTC, at the
instant 2024-01-01T22:30Z (local calendar date 2024-01-02), the newest
computed key is the UTC date 2024-01-01, not the local calendar date —
the window does not end at D's local calendar date. -/
theorem visibleDatesUTC_not_local_date :
    List.head? (visibleDatesUTC 1704148200000 7) = some "2024-01-01"
      ∧ formatDateKeyLocal (localCivilDate 1704148200000 120) = "2024-01-02"
      ∧ List.head? (visibleDatesUTC 1704148200000 7)
          ≠ some (formatDateKeyLocal (localCivilDate 1704148200000 120)) := by
  refine ⟨by decide, by decide, by decide⟩

end CvCalendar
